import Mathlib

/-!
Verification of the thread/task lifecycle core of the embox kernel
(src/kernel/task/multi_thread.c together with the thread descriptor of
src/include/kernel/thread/types.h).

The kernel state is shallowly embedded: threads and tasks are identified by
natural-number ids, C pointers become `Option Nat` (with `none` for NULL),
and the intrusive `struct dlist_head` links embedded in each thread are two
total maps `next, prev : Nat → Nat` indexed by the owning thread's id.

The doubly-linked-list primitives (`dlist_head_init`, `dlist_add_next`,
`dlist_del`) and the scheduler priority services (`sched_priority_full`,
`thread_priority_get`, `thread_priority_set`) are declared in headers whose
implementations are outside the provided sources; they are modelled from the
specification, as noted on each definition.  The two membership operations
`task_add_thread` and `task_remove_thread` are translated line by line from
src/kernel/task/multi_thread.c.
-/

namespace Embox

/-- Pointwise update of a map from thread ids. -/
def upd {α : Type} (f : Nat → α) (i : Nat) (v : α) : Nat → α :=
  fun j => if j = i then v else f j

/-- Kernel state visible to the membership manager: the intrusive ring links
of every thread (`next`/`prev`, indexed by the thread id owning the
`thread_link` node), each thread's `task` back-reference, the scheduler
attributes of each thread (intrinsic and installed effective priority), and
for each task its `main_thread` pointer and base priority. -/
structure KState where
  next : Nat → Nat
  prev : Nat → Nat
  taskOf : Nat → Option Nat
  intr : Nat → Int
  eff : Nat → Int
  mainThread : Nat → Option Nat
  taskPrio : Nat → Int

/-- Modelled from the spec: `dlist_head_init` (util/dlist.h is not among the
provided sources) initializes a link as a singleton node, i.e. a one-element
circular doubly linked ring pointing at itself in both directions. -/
def dlist_head_init (s : KState) (n : Nat) : KState :=
  { s with next := upd s.next n n, prev := upd s.prev n n }

/-- Modelled from the spec: `dlist_add_next` (util/dlist.h is not among the
provided sources) splices node `nw` into the circular ring immediately after
node `anchor`: `nw` goes between `anchor` and `anchor`'s old successor. -/
def dlist_add_next (s : KState) (nw anchor : Nat) : KState :=
  { s with
    next := upd (upd s.next anchor nw) nw (s.next anchor),
    prev := upd (upd s.prev (s.next anchor) nw) nw anchor }

/-- Modelled from the spec: `dlist_del` (util/dlist.h is not among the
provided sources) unlinks node `n` from its ring by splicing its two
neighbours together; the unlinked node's own `next`/`prev` fields are left
behind unchanged (stale), as in the classic intrusive-list deletion. -/
def dlist_del (s : KState) (n : Nat) : KState :=
  { s with
    next := upd s.next (s.prev n) (s.next n),
    prev := upd s.prev (s.next n) (s.prev n) }

/-- Modelled from the spec: `thread_priority_get` reads the thread's
intrinsic scheduling priority from its scheduler-private `sched_attr`. -/
def thread_priority_get (s : KState) (t : Nat) : Int :=
  s.intr t

/-- Modelled from the spec: `thread_priority_set` installs an effective
scheduling priority on the thread's scheduler-private `sched_attr`. -/
def thread_priority_set (s : KState) (t : Nat) (p : Int) : KState :=
  { s with eff := upd s.eff t p }

/-- Embedding of `task_add_thread` from src/kernel/task/multi_thread.c.
The external priority-composition service `sched_priority_full` is passed in
as the opaque function `compose`.  A NULL `task` or `t` returns `-EINVAL`
(= -22).  Otherwise the code initializes `t->thread_link`, splices it right
after `task->main_thread->thread_link`, sets `t->task`, composes and installs
the effective priority, and returns `ENOERR` (= 0).  The dereference of
`task->main_thread` is not guarded by a null check in the C code; a task
whose `main_thread` is NULL makes the operation crash, modelled as `none`. -/
def task_add_thread (compose : Int → Int → Int) (s : KState)
    (task t : Option Nat) : Option (Int × KState) :=
  match task, t with
  | some taskId, some tId =>
    match s.mainThread taskId with
    | none => none
    | some m =>
      let s1 := dlist_head_init s tId
      let s2 := dlist_add_next s1 tId m
      let s3 := { s2 with taskOf := upd s2.taskOf tId (some taskId) }
      let pr := compose (s3.taskPrio taskId) (thread_priority_get s3 tId)
      some (0, thread_priority_set s3 tId pr)
  | _, _ => some (-22, s)

/-- Embedding of `task_remove_thread` from src/kernel/task/multi_thread.c.
Returns `-EINVAL` (= -22) when `task` or `thread` is NULL or when
`task->main_thread` is NULL, `-EBUSY` (= -16) when `thread` is the task's
main thread, and otherwise unlinks `thread->thread_link` via `dlist_del` and
returns `ENOERR` (= 0).  The `#if 0` block of the C source is dead code and
is not modelled. -/
def task_remove_thread (s : KState) (task thread : Option Nat) :
    Int × KState :=
  match task, thread with
  | some taskId, some tId =>
    match s.mainThread taskId with
    | none => (-22, s)
    | some m =>
      if m = tId then (-16, s)
      else (0, dlist_del s tId)
  | _, _ => (-22, s)

/-- Chain predicate for the ring links: `chain s a l b` states that starting
at node `a`, the `next` pointers run through the nodes of `l` in order and
then reach `b`, with every `prev` pointer along the way inverse to the
corresponding `next` pointer. -/
def chain (s : KState) : Nat → List Nat → Nat → Prop
  | a, [], b => s.next a = b ∧ s.prev b = a
  | a, x :: xs, b => (s.next a = x ∧ s.prev x = a) ∧ chain s x xs b

/-- Terminal element of the nonempty list `a :: l`. -/
def lastD (a : Nat) : List Nat → Nat
  | [] => a
  | x :: xs => lastD x xs

/-- Head element of `l ++ [b]`. -/
def headD (l : List Nat) (b : Nat) : Nat :=
  match l with
  | [] => b
  | x :: _ => x

/-- A nonempty duplicate-free list is realized as a circular doubly linked
ring in state `s` when following `next` from its head walks through exactly
its elements and returns to the head, with consistent `prev` pointers. -/
def isRing (s : KState) (l : List Nat) : Prop :=
  match l with
  | [] => False
  | a :: rest => l.Nodup ∧ chain s a rest a

/-- Ring traversal: `b` is reachable from `a` by iterating `next`. -/
def reachesFrom (s : KState) (a b : Nat) : Prop :=
  ∃ n : Nat, s.next^[n] a = b

theorem upd_same {α : Type} (f : Nat → α) (i : Nat) (v : α) : upd f i v i = v := by
  simp [upd]

theorem upd_other {α : Type} (f : Nat → α) (i : Nat) (v : α) (j : Nat) (h : j ≠ i) :
    upd f i v j = f j := by
  simp [upd, h]

theorem upd_self {α : Type} (f : Nat → α) (i : Nat) : upd f i (f i) = f := by
  funext j
  by_cases h : j = i <;> simp [upd, h]

theorem lastD_mem (a : Nat) (u : List Nat) : lastD a u ∈ a :: u := by
  induction u generalizing a with
  | nil => simp [lastD]
  | cons x xs ih => exact List.mem_cons_of_mem a (ih x)

theorem chain_congr (s s' : KState) (a : Nat) (l : List Nat) (b : Nat)
    (hnext : ∀ y ∈ a :: l, s'.next y = s.next y)
    (hprev : ∀ y ∈ l ++ [b], s'.prev y = s.prev y)
    (h : chain s a l b) : chain s' a l b := by
  induction l generalizing a with
  | nil =>
    obtain ⟨h1, h2⟩ := h
    refine ⟨?_, ?_⟩
    · rw [hnext a (by simp)]; exact h1
    · rw [hprev b (by simp)]; exact h2
  | cons x xs ih =>
    obtain ⟨⟨h1, h2⟩, h3⟩ := h
    refine ⟨⟨?_, ?_⟩, ?_⟩
    · rw [hnext a (List.mem_cons_self a (x :: xs))]; exact h1
    · rw [hprev x (by simp)]; exact h2
    · exact ih x (fun y hy => hnext y (List.mem_cons_of_mem a hy))
        (fun y hy => hprev y (List.mem_cons_of_mem x hy)) h3

theorem chain_append (s : KState) (a : Nat) (u : List Nat) (x : Nat) (v : List Nat) (b : Nat) :
    chain s a (u ++ x :: v) b ↔ chain s a u x ∧ chain s x v b := by
  induction u generalizing a with
  | nil => simp [chain, and_assoc]
  | cons y u' ih => simp [chain, ih, and_assoc]

theorem chain_last (s : KState) (a : Nat) (u : List Nat) (b : Nat) (h : chain s a u b) :
    s.next (lastD a u) = b ∧ s.prev b = lastD a u := by
  induction u generalizing a with
  | nil => exact h
  | cons x xs ih => exact ih x h.2

theorem chain_head (s : KState) (a : Nat) (l : List Nat) (b : Nat) (h : chain s a l b) :
    s.next a = headD l b ∧ s.prev (headD l b) = a := by
  cases l with
  | nil => exact h
  | cons x xs => exact h.1

theorem chain_relink (s : KState) (a : Nat) (u : List Nat) (t w : Nat)
    (h : chain s a u t) (hnd : (a :: u).Nodup) (hw : w ∉ u) :
    chain { s with next := upd s.next (lastD a u) w,
                   prev := upd s.prev w (lastD a u) } a u w := by
  induction u generalizing a with
  | nil => exact ⟨upd_same _ _ _, upd_same _ _ _⟩
  | cons x u' ih =>
    obtain ⟨⟨h1, h2⟩, h3⟩ := h
    obtain ⟨ha, hnd'⟩ := List.nodup_cons.mp hnd
    have hax : a ≠ lastD x u' := fun e => ha (e ▸ lastD_mem x u')
    have hxw : x ≠ w := fun e => hw (e ▸ List.mem_cons_self x u')
    refine ⟨⟨?_, ?_⟩, ?_⟩
    · show upd s.next (lastD x u') w a = x
      rw [upd_other _ _ _ _ hax]; exact h1
    · show upd s.prev w (lastD x u') x = a
      rw [upd_other _ _ _ _ hxw]; exact h2
    · exact ih x h3 hnd' (fun hx => hw (List.mem_cons_of_mem x hx))

theorem chain_next_mem (s : KState) (a : Nat) (l : List Nat) (b : Nat)
    (h : chain s a l b) : ∀ x ∈ a :: l, s.next x ∈ l ++ [b] := by
  induction l generalizing a with
  | nil =>
    intro x hx
    have : x = a := by simpa using hx
    subst this
    simp [h.1]
  | cons y l' ih =>
    intro x hx
    rcases List.mem_cons.mp hx with hxa | hx'
    · subst hxa; simp [h.1.1]
    · exact List.mem_cons_of_mem y (ih y h.2 x hx')

theorem chain_reach (s : KState) (a : Nat) (l : List Nat) (b : Nat)
    (h : chain s a l b) : ∀ x ∈ a :: l, ∃ n : Nat, s.next^[n] a = x := by
  induction l generalizing a with
  | nil =>
    intro x hx
    have : x = a := by simpa using hx
    exact ⟨0, this.symm⟩
  | cons y l' ih =>
    intro x hx
    rcases List.mem_cons.mp hx with hxa | hx'
    · exact ⟨0, hxa.symm⟩
    · obtain ⟨n, hn⟩ := ih y h.2 x hx'
      refine ⟨n + 1, ?_⟩
      rw [Function.iterate_succ_apply, h.1.1]
      exact hn

theorem ring_reach_iff_mem (s : KState) (m : Nat) (xs : List Nat) (t : Nat)
    (h : isRing s (m :: xs)) : reachesFrom s m t ↔ t ∈ m :: xs := by
  obtain ⟨hnd, hch⟩ := h
  constructor
  · rintro ⟨n, rfl⟩
    have closure : ∀ x ∈ m :: xs, s.next x ∈ m :: xs := by
      intro x hx
      rcases List.mem_append.mp (chain_next_mem s m xs m hch x hx) with h1 | h1
      · exact List.mem_cons_of_mem _ h1
      · have : s.next x = m := by simpa using h1
        simp [this]
    induction n with
    | zero => simp
    | succ k ihk =>
      rw [Function.iterate_succ_apply']
      exact closure _ ihk
  · intro ht
    exact chain_reach s m xs m hch t ht

theorem add_next_next (s : KState) (t m : Nat) (htm : t ≠ m) (j : Nat) :
    (dlist_add_next (dlist_head_init s t) t m).next j =
      if j = t then s.next m else if j = m then t else s.next j := by
  by_cases h1 : j = t
  · subst h1
    simp [dlist_add_next, dlist_head_init, upd, Ne.symm htm]
  · by_cases h2 : j = m
    · subst h2
      simp [dlist_add_next, dlist_head_init, upd, h1, Ne.symm htm]
    · simp [dlist_add_next, dlist_head_init, upd, h1, h2]

theorem add_next_prev (s : KState) (t m : Nat) (htm : t ≠ m) (j : Nat) :
    (dlist_add_next (dlist_head_init s t) t m).prev j =
      if j = t then m else if j = s.next m then t else s.prev j := by
  by_cases h1 : j = t
  · subst h1
    simp [dlist_add_next, dlist_head_init, upd, Ne.symm htm]
  · by_cases h2 : j = s.next m
    · subst h2
      simp [dlist_add_next, dlist_head_init, upd, h1, Ne.symm htm]
    · simp [dlist_add_next, dlist_head_init, upd, h1, h2, Ne.symm htm]

theorem isRing_attach (s : KState) (m : Nat) (xs : List Nat) (t : Nat)
    (hr : isRing s (m :: xs)) (ht : t ∉ m :: xs) :
    isRing (dlist_add_next (dlist_head_init s t) t m) (m :: t :: xs) := by
  obtain ⟨hnd, hch⟩ := hr
  obtain ⟨hm, hndxs⟩ := List.nodup_cons.mp hnd
  have htm : t ≠ m := fun e => ht (e ▸ List.mem_cons_self m xs)
  have hmt : m ≠ t := Ne.symm htm
  have htxs : t ∉ xs := fun hx => ht (List.mem_cons_of_mem m hx)
  refine ⟨?_, ?_⟩
  · refine List.nodup_cons.mpr ⟨?_, List.nodup_cons.mpr ⟨htxs, hndxs⟩⟩
    intro hc
    rcases List.mem_cons.mp hc with e | e
    · exact hmt e
    · exact hm e
  · cases xs with
    | nil =>
      obtain ⟨hn, hp⟩ := hch
      refine ⟨⟨?_, ?_⟩, ?_, ?_⟩
      · rw [add_next_next s t m htm m]
        simp [hmt]
      · rw [add_next_prev s t m htm t]
        simp
      · rw [add_next_next s t m htm t]
        simp [hn]
      · rw [add_next_prev s t m htm m]
        simp [hmt, hn]
    | cons x xs' =>
      obtain ⟨⟨hnx, hpx⟩, hch'⟩ := hch
      have hxt : x ≠ t := fun e => htxs (e ▸ List.mem_cons_self x xs')
      have hmx : m ∉ x :: xs' := hm
      have hmnex : m ≠ x := fun e => hmx (e ▸ List.mem_cons_self x xs')
      refine ⟨⟨?_, ?_⟩, ⟨?_, ?_⟩, ?_⟩
      · rw [add_next_next s t m htm m]
        simp [hmt]
      · rw [add_next_prev s t m htm t]
        simp
      · rw [add_next_next s t m htm t]
        simp [hnx]
      · rw [add_next_prev s t m htm x]
        simp [hxt, hnx]
      · refine chain_congr s _ x xs' m ?_ ?_ hch'
        · intro y hy
          have hyt : y ≠ t := fun e => htxs (e ▸ hy)
          have hym : y ≠ m := fun e => hmx (e ▸ hy)
          rw [add_next_next s t m htm y]
          simp [hyt, hym]
        · intro y hy
          have hyt : y ≠ t := by
            rcases List.mem_append.mp hy with h1 | h1
            · exact fun e => htxs (e ▸ List.mem_cons_of_mem x h1)
            · have : y = m := by simpa using h1
              exact this ▸ Ne.symm htm
          have hyx : y ≠ s.next m := by
            rw [hnx]
            rcases List.mem_append.mp hy with h1 | h1
            · exact fun e => (List.nodup_cons.mp hndxs).1 (e ▸ h1)
            · have : y = m := by simpa using h1
              exact this ▸ hmnex
          rw [add_next_prev s t m htm y]
          simp [hyt, hyx]

theorem isRing_del (s : KState) (m : Nat) (u v : List Nat) (t : Nat)
    (hr : isRing s (m :: (u ++ t :: v))) :
    isRing (dlist_del s t) (m :: (u ++ v)) := by
  obtain ⟨hnd, hch⟩ := hr
  obtain ⟨hmnotin, hnd2⟩ := List.nodup_cons.mp hnd
  rw [List.nodup_append] at hnd2
  obtain ⟨hndu, hndtv, hdisj⟩ := hnd2
  have hmnotu : m ∉ u := fun h => hmnotin (List.mem_append_left _ h)
  have hmnottv : m ∉ t :: v := fun h => hmnotin (List.mem_append_right _ h)
  have hmt : m ≠ t := fun e => hmnottv (e ▸ List.mem_cons_self t v)
  have hmu_nodup : (m :: u).Nodup := List.nodup_cons.mpr ⟨hmnotu, hndu⟩
  obtain ⟨hmu, htv⟩ := (chain_append s m u t v m).mp hch
  have hP : s.prev t = lastD m u := (chain_last s m u t hmu).2
  have hN : s.next t = headD v m := (chain_head s t v m htv).1
  refine ⟨?_, ?_⟩
  · exact hnd.sublist (List.Sublist.cons₂ m ((List.sublist_cons_self t v).append_left u))
  · have hdel : dlist_del s t =
        { s with next := upd s.next (lastD m u) (headD v m),
                 prev := upd s.prev (headD v m) (lastD m u) } := by
      rw [dlist_del, hP, hN]
    rw [hdel]
    cases v with
    | nil =>
      have : (u ++ ([] : List Nat)) = u := by simp
      rw [this]
      exact chain_relink s m u t m hmu hmu_nodup hmnotu
    | cons c v' =>
      obtain ⟨⟨hnt, hpc⟩, hcv⟩ := htv
      have hcnotu : c ∉ u := by
        intro hcu
        exact hdisj hcu (List.mem_cons_of_mem t (List.mem_cons_self c v'))
      have hccv : c ∉ v' := by
        have := List.nodup_cons.mp hndtv
        exact (List.nodup_cons.mp this.2).1
      have hmc : m ≠ c := by
        intro e
        exact hmnottv (by rw [e]; exact List.mem_cons_of_mem t (List.mem_cons_self c v'))
      refine (chain_append _ m u c v' m).mpr ⟨?_, ?_⟩
      · exact chain_relink s m u t c hmu hmu_nodup hcnotu
      · refine chain_congr s _ c v' m ?_ ?_ hcv
        · intro y hy
          have hylast : y ≠ lastD m u := by
            intro e
            rcases List.mem_cons.mp (e ▸ lastD_mem m u) with e2 | e2
            · exact hmnottv (e2 ▸ List.mem_cons_of_mem t hy)
            · exact hdisj e2 (List.mem_cons_of_mem t hy)
          show upd s.next (lastD m u) (headD (c :: v') m) y = s.next y
          rw [upd_other _ _ _ _ hylast]
        · intro y hy
          have hyc : y ≠ c := by
            rcases List.mem_append.mp hy with h1 | h1
            · exact fun e => hccv (e ▸ h1)
            · have : y = m := by simpa using h1
              exact this ▸ hmc
          show upd s.prev (headD (c :: v') m) (lastD m u) y = s.prev y
          exact upd_other _ _ _ _ hyc

theorem isRing_congr (s s' : KState) (l : List Nat)
    (hn : ∀ y, s'.next y = s.next y) (hp : ∀ y, s'.prev y = s.prev y)
    (h : isRing s l) : isRing s' l := by
  cases l with
  | nil => exact h.elim
  | cons a rest =>
    exact ⟨h.1, chain_congr s s' a rest a (fun y _ => hn y) (fun y _ => hp y) h.2⟩

theorem task_add_thread_eq (compose : Int → Int → Int) (s : KState) (taskId tId m : Nat)
    (hm : s.mainThread taskId = some m) :
    task_add_thread compose s (some taskId) (some tId) =
      some (0, { dlist_add_next (dlist_head_init s tId) tId m with
                 taskOf := upd s.taskOf tId (some taskId),
                 eff := upd s.eff tId (compose (s.taskPrio taskId) (s.intr tId)) }) := by
  simp [task_add_thread, hm, thread_priority_get, thread_priority_set,
    dlist_add_next, dlist_head_init]

theorem task_remove_thread_ok (s : KState) (taskId tId m : Nat)
    (hm : s.mainThread taskId = some m) (hne : m ≠ tId) :
    task_remove_thread s (some taskId) (some tId) = (0, dlist_del s tId) := by
  simp [task_remove_thread, hm, hne]

theorem task_remove_thread_busy (s : KState) (taskId m : Nat)
    (hm : s.mainThread taskId = some m) :
    task_remove_thread s (some taskId) (some m) = (-16, s) := by
  simp [task_remove_thread, hm]

/-- Sequences of membership operations applied to the task `taskId` (with
main thread `m`): `Reach compose taskId m s s'` states that state `s'`
results from state `s` by some sequence of `task_add_thread` and
`task_remove_thread` calls on this task, each respecting the spec's
precondition for the operation (an attached thread is a ring member, a
thread to attach is not yet a member). -/
inductive Reach (compose : Int → Int → Int) (taskId m : Nat) (s0 : KState) :
    KState → Prop
  | refl : Reach compose taskId m s0 s0
  | attach (s' s'' : KState) (t : Nat) (r : Int)
      (hprev : Reach compose taskId m s0 s')
      (hpre : ¬ reachesFrom s' m t)
      (hstep : task_add_thread compose s' (some taskId) (some t) = some (r, s'')) :
      Reach compose taskId m s0 s''
  | detach (s' s'' : KState) (t : Nat) (r : Int)
      (hprev : Reach compose taskId m s0 s')
      (hpre : reachesFrom s' m t)
      (hstep : task_remove_thread s' (some taskId) (some t) = (r, s'')) :
      Reach compose taskId m s0 s''

theorem reach_invariant (compose : Int → Int → Int) (taskId m : Nat) (s0 s : KState)
    (hrun : Reach compose taskId m s0 s)
    (hm0 : s0.mainThread taskId = some m)
    (h0 : ∃ xs, isRing s0 (m :: xs)) :
    s.mainThread taskId = some m ∧ ∃ xs, isRing s (m :: xs) := by
  induction hrun with
  | refl => exact ⟨hm0, h0⟩
  | attach s' s'' t r hp hpre hstep ih =>
    obtain ⟨hm', xs, hring⟩ := ih
    have htmem : t ∉ m :: xs :=
      fun hmem => hpre ((ring_reach_iff_mem s' m xs t hring).mpr hmem)
    rw [task_add_thread_eq compose s' taskId t m hm'] at hstep
    rw [Option.some.injEq, Prod.mk.injEq] at hstep
    obtain ⟨hr, hX⟩ := hstep
    refine ⟨?_, ⟨t :: xs, ?_⟩⟩
    · rw [← hX]; exact hm'
    · rw [← hX]
      exact isRing_congr (dlist_add_next (dlist_head_init s' t) t m) _
        (m :: t :: xs) (fun y => rfl) (fun y => rfl)
        (isRing_attach s' m xs t hring htmem)
  | detach s' s'' t r hp hpre hstep ih =>
    obtain ⟨hm', xs, hring⟩ := ih
    have htmem : t ∈ m :: xs := (ring_reach_iff_mem s' m xs t hring).mp hpre
    rcases List.mem_cons.mp htmem with e | hmem
    · subst e
      rw [task_remove_thread_busy s' taskId t hm'] at hstep
      rw [Prod.mk.injEq] at hstep
      rw [← hstep.2]
      exact ⟨hm', xs, hring⟩
    · obtain ⟨u, v, rfl⟩ := List.append_of_mem hmem
      have hne : m ≠ t := fun e =>
        (List.nodup_cons.mp hring.1).1 (e ▸ hmem)
      rw [task_remove_thread_ok s' taskId t m hm' hne] at hstep
      rw [Prod.mk.injEq] at hstep
      rw [← hstep.2]
      exact ⟨hm', u ++ v, isRing_del s' m u v t hring⟩

/-- C1: for every task and every sequence of Attach and Detach operations
applied to it (each respecting the spec's preconditions), the task's
thread-group ring always contains the task's `main_thread` — the ring is
never empty — and removing the last non-main thread leaves a ring containing
only `main_thread`. -/
theorem ring_always_contains_main (compose : Int → Int → Int) (taskId m : Nat)
    (s0 s : KState)
    (hm0 : s0.mainThread taskId = some m)
    (h0 : isRing s0 [m])
    (hrun : Reach compose taskId m s0 s) :
    (∃ xs, isRing s (m :: xs) ∧ m ∈ m :: xs) ∧
    (∀ t s', isRing s [m, t] →
      task_remove_thread s (some taskId) (some t) = (0, s') → isRing s' [m]) := by
  obtain ⟨hm', xs, hring⟩ :=
    reach_invariant compose taskId m s0 s hrun hm0 ⟨[], h0⟩
  refine ⟨⟨xs, hring, List.mem_cons_self m xs⟩, ?_⟩
  intro t s' hring2 hdet
  have hne : m ≠ t := by
    intro e
    have := (List.nodup_cons.mp hring2.1).1
    exact this (e ▸ List.mem_cons_self t [])
  rw [task_remove_thread_ok s taskId t m hm' hne] at hdet
  rw [Prod.mk.injEq] at hdet
  rw [← hdet.2]
  exact isRing_del s m [] [] t hring2

/-- Concrete kernel state used to instantiate hypotheses: task 0 exists with
main thread 0 forming a singleton ring, base priority 5; all other threads
are unattached with intrinsic priority 1. -/
def cbase : KState :=
  { next := fun _ => 0, prev := fun _ => 0, taskOf := fun _ => none,
    intr := fun _ => 1, eff := fun _ => 0,
    mainThread := fun i => if i = 0 then some 0 else none,
    taskPrio := fun _ => 5 }

/-- Concrete priority-composition service used for instantiations. -/
def addc : Int → Int → Int := fun a b => a + b

/-- State after a call of `task_add_thread` (the crash case falls back to the
input state; it is never taken in the concrete traces below). -/
def stepAdd (compose : Int → Int → Int) (s : KState) (taskId tId : Nat) : KState :=
  ((task_add_thread compose s (some taskId) (some tId)).map Prod.snd).getD s

/-- State after a call of `task_remove_thread`. -/
def stepDel (s : KState) (taskId tId : Nat) : KState :=
  (task_remove_thread s (some taskId) (some tId)).2

/-- Concrete trace: thread 1 attached to task 0 — ring is 0 ↔ 1. -/
def cs1 : KState := stepAdd addc cbase 0 1

/-- Concrete trace: thread 1 detached again — ring is the singleton 0, and
thread 1's own link fields are left stale, pointing at node 0. -/
def cs2 : KState := stepDel cs1 0 1

/-- Concrete trace: thread 2 attached — ring is 0 ↔ 2. -/
def cs3 : KState := stepAdd addc cs2 0 2

/-- Concrete trace: thread 1 detached a second time, after the intervening
attach of thread 2; its stale link fields still point at node 0, so the
deletion splices node 0 to itself and orphans thread 2. -/
def cs4 : KState := stepDel cs3 0 1

/-- Concrete malformed task state: task 0 exists but its `main_thread` is
NULL. -/
def cnomain : KState := { cbase with mainThread := fun _ => none }

/-- C2: `task_remove_thread` fails with `-EINVAL` iff `task` is null,
`thread` is null, or `task->main_thread` is null; given those checks pass it
fails with `-EBUSY` iff `thread` equals `task->main_thread`; in every other
case it returns success; in particular detaching the main thread itself
always returns `-EBUSY`. -/
theorem detach_error_conditions (s : KState) (task thread : Option Nat) :
    ((task_remove_thread s task thread).1 = -22 ↔
      task = none ∨ thread = none ∨ task.bind s.mainThread = none) ∧
    ((task_remove_thread s task thread).1 = -16 ↔
      task ≠ none ∧ thread ≠ none ∧ task.bind s.mainThread ≠ none ∧
        task.bind s.mainThread = thread) ∧
    ((task ≠ none ∧ thread ≠ none ∧ task.bind s.mainThread ≠ none ∧
        task.bind s.mainThread ≠ thread) →
      (task_remove_thread s task thread).1 = 0) ∧
    (∀ taskId mt, s.mainThread taskId = some mt →
      (task_remove_thread s (some taskId) (some mt)).1 = -16) := by
  refine ⟨?_, ?_, ?_, ?_⟩
  · rcases task with _ | taskId
    · simp [task_remove_thread]
    · rcases thread with _ | tId
      · simp [task_remove_thread]
      · rcases hmm : s.mainThread taskId with _ | mt
        · simp [task_remove_thread, hmm]
        · by_cases he : mt = tId
          · subst he; simp [task_remove_thread, hmm]
          · simp [task_remove_thread, hmm, he]
  · rcases task with _ | taskId
    · simp [task_remove_thread]
    · rcases thread with _ | tId
      · simp [task_remove_thread]
      · rcases hmm : s.mainThread taskId with _ | mt
        · simp [task_remove_thread, hmm]
        · by_cases he : mt = tId
          · subst he; simp [task_remove_thread, hmm]
          · simp [task_remove_thread, hmm, he]
  · rintro ⟨h1, h2, h3, h4⟩
    rcases task with _ | taskId
    · exact absurd rfl h1
    · rcases thread with _ | tId
      · exact absurd rfl h2
      · rcases hmm : s.mainThread taskId with _ | mt
        · rw [show (some taskId).bind s.mainThread = none by simp [hmm]] at h3
          exact absurd rfl h3
        · have he : mt ≠ tId := by
            intro e
            apply h4
            simp [hmm, e]
          simp [task_remove_thread, hmm, he]
  · intro taskId mt hmt
    simp [task_remove_thread, hmt]

/-- Witness for C2: detaching task 0's own main thread in the concrete state
returns `-EBUSY`. -/
theorem detach_error_conditions_witness :
    (task_remove_thread cbase (some 0) (some 0)).1 = -16 :=
  (detach_error_conditions cbase (some 0) (some 0)).2.2.2 0 0 rfl

/-- C3: every successful Attach returns with the effective priority of the
attached thread equal to the external composition service applied to the
task's priority and the thread's intrinsic priority, already installed. -/
theorem attach_installs_composed_priority (compose : Int → Int → Int)
    (s : KState) (taskId tId : Nat) (r : Int) (s' : KState)
    (h : task_add_thread compose s (some taskId) (some tId) = some (r, s')) :
    r = 0 ∧ s'.eff tId = compose (s.taskPrio taskId) (s.intr tId) := by
  rcases hm : s.mainThread taskId with _ | m
  · simp [task_add_thread, hm] at h
  · rw [task_add_thread_eq compose s taskId tId m hm] at h
    rw [Option.some.injEq, Prod.mk.injEq] at h
    obtain ⟨hr, hX⟩ := h
    refine ⟨hr.symm, ?_⟩
    rw [← hX]
    exact upd_same _ _ _

/-- Witness for C3: attaching thread 1 (intrinsic priority 1) to task 0
(priority 5) installs `addc 5 1`. -/
theorem attach_installs_composed_priority_witness :
    (0 : Int) = 0 ∧ cs1.eff 1 = addc (cbase.taskPrio 0) (cbase.intr 1) :=
  attach_installs_composed_priority addc cbase 0 1 0 cs1 rfl

/-- C4: after every successful Attach the thread's link is spliced into the
ring immediately adjacent to the task's main thread, the thread's `task`
back-reference is set to the task, and the thread is reachable by ring
traversal from the main thread. -/
theorem attach_links_thread (compose : Int → Int → Int) (s : KState)
    (taskId tId m : Nat) (r : Int) (s' : KState)
    (hm : s.mainThread taskId = some m)
    (h : task_add_thread compose s (some taskId) (some tId) = some (r, s')) :
    r = 0 ∧ s'.next m = tId ∧ s'.prev tId = m ∧
      s'.taskOf tId = some taskId ∧ reachesFrom s' m tId := by
  rw [task_add_thread_eq compose s taskId tId m hm] at h
  rw [Option.some.injEq, Prod.mk.injEq] at h
  obtain ⟨hr, hX⟩ := h
  have h1 : (dlist_add_next (dlist_head_init s tId) tId m).next m = tId := by
    by_cases e : m = tId
    · subst e; simp [dlist_add_next, dlist_head_init, upd]
    · simp [dlist_add_next, dlist_head_init, upd, e]
  have h2 : (dlist_add_next (dlist_head_init s tId) tId m).prev tId = m := by
    simp [dlist_add_next, dlist_head_init, upd]
  refine ⟨hr.symm, ?_, ?_, ?_, ?_⟩
  · rw [← hX]; exact h1
  · rw [← hX]; exact h2
  · rw [← hX]; exact upd_same _ _ _
  · refine ⟨1, ?_⟩
    rw [← hX]
    simpa using h1

/-- Witness for C4 at the concrete attach of thread 1 to task 0. -/
theorem attach_links_thread_witness :
    (0 : Int) = 0 ∧ cs1.next 0 = 1 ∧ cs1.prev 1 = 0 ∧
      cs1.taskOf 1 = some 0 ∧ reachesFrom cs1 0 1 :=
  attach_links_thread addc cbase 0 1 0 0 cs1 rfl rfl

/-- C5: whenever Attach or Detach returns an error code, the state is
completely unchanged — ring linkage, task back-references and installed
priorities included. -/
theorem no_mutation_on_error (compose : Int → Int → Int) (s : KState)
    (task thread : Option Nat) (r : Int) (s' : KState) :
    (task_add_thread compose s task thread = some (r, s') → r ≠ 0 → s' = s) ∧
    (task_remove_thread s task thread = (r, s') → r ≠ 0 → s' = s) := by
  constructor
  · intro h hr
    rcases task with _ | taskId
    · simp [task_add_thread] at h
      exact h.2.symm
    · rcases thread with _ | tId
      · simp [task_add_thread] at h
        exact h.2.symm
      · rcases hm : s.mainThread taskId with _ | m
        · simp [task_add_thread, hm] at h
        · rw [task_add_thread_eq compose s taskId tId m hm] at h
          rw [Option.some.injEq, Prod.mk.injEq] at h
          exact absurd h.1.symm hr
  · intro h hr
    rcases task with _ | taskId
    · simp [task_remove_thread] at h
      exact h.2.symm
    · rcases thread with _ | tId
      · simp [task_remove_thread] at h
        exact h.2.symm
      · rcases hm : s.mainThread taskId with _ | m
        · simp [task_remove_thread, hm] at h
          exact h.2.symm
        · by_cases he : m = tId
          · subst he
            simp [task_remove_thread, hm] at h
            exact h.2.symm
          · simp [task_remove_thread, hm, he] at h
            exact absurd h.1.symm hr

/-- Witness for C5: a null-argument Attach fails with `-EINVAL` and leaves
the concrete state unchanged. -/
theorem no_mutation_on_error_witness : cbase = cbase :=
  (no_mutation_on_error addc cbase none none (-22) cbase).1 rfl (by decide)

/-- C6 counterexample: on a task whose `main_thread` is NULL,
`task_add_thread` with two non-null arguments does not return success — the
unchecked dereference of `task->main_thread` crashes (modelled as `none`),
refuting the claim that every pair of non-null arguments returns success. -/
theorem attach_malformed_task_counterexample :
    task_add_thread addc cnomain (some 0) (some 1) = none := rfl

/-- C6 amended: Attach fails with `-EINVAL` iff `task` or `thread` is null;
for every pair of non-null arguments whose task has a non-null
`main_thread`, it returns success, with no side effect on the task's
priority or on the installed priority of any thread other than the attached
one. -/
theorem attach_error_conditions (compose : Int → Int → Int) (s : KState)
    (task thread : Option Nat) :
    ((∃ s', task_add_thread compose s task thread = some (-22, s')) ↔
      task = none ∨ thread = none) ∧
    (∀ taskId tId m, task = some taskId → thread = some tId →
      s.mainThread taskId = some m →
      ∃ s', task_add_thread compose s task thread = some (0, s') ∧
        s'.taskPrio = s.taskPrio ∧ ∀ x, x ≠ tId → s'.eff x = s.eff x) := by
  constructor
  · constructor
    · rintro ⟨s', hs'⟩
      by_contra hc
      push_neg at hc
      rcases task with _ | taskId
      · exact hc.1 rfl
      · rcases thread with _ | tId
        · exact hc.2 rfl
        · rcases hm : s.mainThread taskId with _ | m
          · simp [task_add_thread, hm] at hs'
          · rw [task_add_thread_eq compose s taskId tId m hm] at hs'
            rw [Option.some.injEq, Prod.mk.injEq] at hs'
            exact absurd hs'.1 (by decide)
    · intro hc
      rcases hc with rfl | rfl
      · exact ⟨s, by rcases thread with _ | tId <;> rfl⟩
      · exact ⟨s, by rcases task with _ | taskId <;> rfl⟩
  · rintro taskId tId m rfl rfl hm
    refine ⟨_, task_add_thread_eq compose s taskId tId m hm, rfl, ?_⟩
    intro x hx
    exact upd_other _ _ _ _ hx

/-- Witness for C6 (amended) at the concrete attach of thread 1 to task 0. -/
theorem attach_error_conditions_witness :
    ∃ s', task_add_thread addc cbase (some 0) (some 1) = some (0, s') ∧
      s'.taskPrio = cbase.taskPrio ∧ ∀ x, x ≠ 1 → s'.eff x = cbase.eff x :=
  (attach_error_conditions addc cbase (some 0) (some 1)).2 0 1 0 rfl rfl rfl

/-- C7: a successful Detach of a ring member unlinks exactly that thread —
the remaining ring is still a well-formed ring containing the main thread,
the detached thread is no longer reachable from the main thread, and every
thread's `task` back-reference (the detached thread's included) is left
unchanged. -/
theorem detach_unlinks_only (s : KState) (taskId m tId : Nat) (u v : List Nat)
    (r : Int) (s' : KState)
    (hm : s.mainThread taskId = some m)
    (hr : isRing s (m :: (u ++ tId :: v)))
    (h : task_remove_thread s (some taskId) (some tId) = (r, s')) :
    r = 0 ∧ s'.taskOf = s.taskOf ∧ isRing s' (m :: (u ++ v)) ∧
      ¬ reachesFrom s' m tId := by
  have hmnotin := (List.nodup_cons.mp hr.1).1
  have hne : m ≠ tId := by
    intro e
    exact hmnotin (by rw [e]; exact List.mem_append_right _ (List.mem_cons_self _ _))
  rw [task_remove_thread_ok s taskId tId m hm hne] at h
  rw [Prod.mk.injEq] at h
  obtain ⟨hr0, hs'⟩ := h
  rw [← hs']
  have hringdel := isRing_del s m u v tId hr
  refine ⟨hr0.symm, rfl, hringdel, ?_⟩
  intro hreach
  have hmem := (ring_reach_iff_mem _ m (u ++ v) tId hringdel).mp hreach
  have hnd2 := (List.nodup_cons.mp hr.1).2
  rw [List.nodup_append] at hnd2
  rcases List.mem_cons.mp hmem with e | e
  · exact hne e.symm
  · rcases List.mem_append.mp e with e1 | e1
    · exact hnd2.2.2 e1 (List.mem_cons_self tId v)
    · exact (List.nodup_cons.mp hnd2.2.1).1 e1

/-- Witness for C7 at the concrete detach of thread 1 from the two-element
ring of task 0. -/
theorem detach_unlinks_only_witness :
    (0 : Int) = 0 ∧ cs2.taskOf = cs1.taskOf ∧
      isRing cs2 (0 :: (([] : List Nat) ++ [])) ∧ ¬ reachesFrom cs2 0 1 :=
  detach_unlinks_only cs1 0 0 1 [] [] 0 cs2 rfl
    ⟨by decide, ⟨by decide, by decide⟩, ⟨by decide, by decide⟩⟩ rfl

/-- C9: for non-null arguments, `task_add_thread` never rejects a malformed
task with `-EINVAL`: it crashes (modelled as `none`) exactly when
`task->main_thread` is null, and whenever it does return, it returns
success — so the dereference of `task->main_thread` is safe only under the
additional precondition that `task->main_thread` is non-null. -/
theorem attach_no_mainthread_check (compose : Int → Int → Int) (s : KState)
    (taskId tId : Nat) :
    (task_add_thread compose s (some taskId) (some tId) = none ↔
      s.mainThread taskId = none) ∧
    (∀ r s', task_add_thread compose s (some taskId) (some tId) = some (r, s') →
      r = 0) := by
  constructor
  · rcases hm : s.mainThread taskId with _ | m
    · simp [task_add_thread, hm]
    · rw [task_add_thread_eq compose s taskId tId m hm]
      simp
  · intro r s' h
    rcases hm : s.mainThread taskId with _ | m
    · simp [task_add_thread, hm] at h
    · rw [task_add_thread_eq compose s taskId tId m hm] at h
      rw [Option.some.injEq, Prod.mk.injEq] at h
      exact h.1.symm

/-- Witness for C9: on the concrete malformed task the attach crashes. -/
theorem attach_no_mainthread_check_witness :
    task_add_thread addc cnomain (some 0) (some 1) = none :=
  (attach_no_mainthread_check addc cnomain 0 1).1.mpr rfl

/-- C10: Detach never verifies ring membership: for every non-null task with
a non-null main thread distinct from the thread argument, it returns success
and performs exactly `dlist_del` on the thread's link — an operation defined
without reference to the task — and any other task passing the same
validation yields the identical result. -/
theorem detach_ignores_membership (s : KState) (taskId m tId : Nat)
    (hm : s.mainThread taskId = some m) (hne : m ≠ tId) :
    task_remove_thread s (some taskId) (some tId) = (0, dlist_del s tId) ∧
    (∀ taskId' m', s.mainThread taskId' = some m' → m' ≠ tId →
      task_remove_thread s (some taskId') (some tId) =
        task_remove_thread s (some taskId) (some tId)) := by
  refine ⟨task_remove_thread_ok s taskId tId m hm hne, ?_⟩
  intro taskId' m' hm' hne'
  rw [task_remove_thread_ok s taskId' tId m' hm' hne',
    task_remove_thread_ok s taskId tId m hm hne]

/-- Witness for C10: detaching the unattached thread 1 from task 0 in the
concrete base state succeeds and performs `dlist_del`. -/
theorem detach_ignores_membership_witness :
    task_remove_thread cbase (some 0) (some 1) = (0, dlist_del cbase 1) ∧
    (∀ taskId' m', cbase.mainThread taskId' = some m' → m' ≠ 1 →
      task_remove_thread cbase (some taskId') (some 1) =
        task_remove_thread cbase (some 0) (some 1)) :=
  detach_ignores_membership cbase 0 0 1 rfl (by decide)

/-- C8 counterexample: after thread 1 has been successfully detached (call
between `cs1` and `cs2`) and thread 2 has then been attached, a second
Detach of thread 1 still returns success but corrupts the ring: thread 2 was
reachable from the main thread before the second call (`cs3`) and is no
longer reachable after it (`cs4`), so the ring does not contain the members
it contained before the second call. -/
theorem detach_twice_counterexample :
    (task_remove_thread cs1 (some 0) (some 1)).1 = 0 ∧
    (task_remove_thread cs3 (some 0) (some 1)).1 = 0 ∧
    reachesFrom cs3 0 2 ∧ ¬ reachesFrom cs4 0 2 := by
  refine ⟨by decide, by decide, ⟨1, by decide⟩, ?_⟩
  rintro ⟨n, hn⟩
  have h0 : cs4.next 0 = 0 := by decide
  rw [Function.iterate_fixed h0 n] at hn
  exact absurd hn (by decide)

/-- C8 amended: calling Detach a second time on the same thread immediately
after it was successfully detached, with no intervening ring mutation,
returns success and leaves the state — in particular the ring — exactly
unchanged; with intervening mutations a second Detach can corrupt the ring
(see the counterexample). -/
theorem detach_twice_immediate_noop (s : KState) (taskId m tId : Nat)
    (u v : List Nat) (s' : KState)
    (hm : s.mainThread taskId = some m)
    (hr : isRing s (m :: (u ++ tId :: v)))
    (h1 : task_remove_thread s (some taskId) (some tId) = (0, s')) :
    task_remove_thread s' (some taskId) (some tId) = (0, s') := by
  obtain ⟨hnd, hch⟩ := hr
  obtain ⟨hmnotin, hnd2⟩ := List.nodup_cons.mp hnd
  rw [List.nodup_append] at hnd2
  obtain ⟨hndu, hndtv, hdisj⟩ := hnd2
  have hmt : m ≠ tId := by
    intro e
    exact hmnotin (by rw [e]; exact List.mem_append_right _ (List.mem_cons_self _ _))
  obtain ⟨hmu, htv⟩ := (chain_append s m u tId v m).mp hch
  have hP : s.prev tId = lastD m u := (chain_last s m u tId hmu).2
  have hN : s.next tId = headD v m := (chain_head s tId v m htv).1
  have htP : tId ≠ s.prev tId := by
    rw [hP]
    intro e
    have hmem : tId ∈ m :: u := by rw [e]; exact lastD_mem m u
    rcases List.mem_cons.mp hmem with e2 | e2
    · exact hmt e2.symm
    · exact hdisj e2 (List.mem_cons_self tId v)
  have htN : tId ≠ s.next tId := by
    rw [hN]
    cases v with
    | nil => exact fun e => hmt e.symm
    | cons c v' =>
      intro e
      exact (List.nodup_cons.mp hndtv).1 (by rw [e]; exact List.mem_cons_self c v')
  rw [task_remove_thread_ok s taskId tId m hm hmt] at h1
  rw [Prod.mk.injEq] at h1
  rw [← h1.2]
  have hm2 : (dlist_del s tId).mainThread taskId = some m := hm
  rw [task_remove_thread_ok (dlist_del s tId) taskId tId m hm2 hmt]
  have e1 : (dlist_del s tId).prev tId = s.prev tId := by
    show upd s.prev (s.next tId) (s.prev tId) tId = s.prev tId
    exact upd_other _ _ _ _ htN
  have e2 : (dlist_del s tId).next tId = s.next tId := by
    show upd s.next (s.prev tId) (s.next tId) tId = s.next tId
    exact upd_other _ _ _ _ htP
  have e3 : (dlist_del s tId).next (s.prev tId) = s.next tId := by
    show upd s.next (s.prev tId) (s.next tId) (s.prev tId) = s.next tId
    exact upd_same _ _ _
  have e4 : (dlist_del s tId).prev (s.next tId) = s.prev tId := by
    show upd s.prev (s.next tId) (s.prev tId) (s.next tId) = s.prev tId
    exact upd_same _ _ _
  have hnx : upd (dlist_del s tId).next ((dlist_del s tId).prev tId)
      ((dlist_del s tId).next tId) = (dlist_del s tId).next := by
    rw [e1, e2, ← e3]
    exact upd_self _ _
  have hpv : upd (dlist_del s tId).prev ((dlist_del s tId).next tId)
      ((dlist_del s tId).prev tId) = (dlist_del s tId).prev := by
    rw [e1, e2, ← e4]
    exact upd_self _ _
  have hdel2 : dlist_del (dlist_del s tId) tId = dlist_del s tId := by
    show ({ dlist_del s tId with
      next := upd (dlist_del s tId).next ((dlist_del s tId).prev tId)
        ((dlist_del s tId).next tId),
      prev := upd (dlist_del s tId).prev ((dlist_del s tId).next tId)
        ((dlist_del s tId).prev tId) } : KState) = dlist_del s tId
    rw [hnx, hpv]
  rw [hdel2]

/-- Witness for C8 (amended): in the concrete trace, the immediate second
detach of thread 1 returns success and leaves the state `cs2` unchanged. -/
theorem detach_twice_immediate_noop_witness :
    task_remove_thread cs2 (some 0) (some 1) = (0, cs2) :=
  detach_twice_immediate_noop cs1 0 0 1 [] [] cs2 rfl
    ⟨by decide, ⟨by decide, by decide⟩, ⟨by decide, by decide⟩⟩ rfl

/-- Witness for C1 at the concrete task 0 with main thread 0 and the empty
operation sequence. -/
theorem ring_always_contains_main_witness :
    (∃ xs, isRing cbase ((0 : Nat) :: xs) ∧ (0 : Nat) ∈ (0 : Nat) :: xs) ∧
    (∀ t s', isRing cbase [0, t] →
      task_remove_thread cbase (some 0) (some t) = (0, s') → isRing s' [0]) :=
  ring_always_contains_main addc 0 0 cbase cbase rfl ⟨by decide, rfl, rfl⟩
    Reach.refl

end Embox
